import Mathlib

/-!
Verification development for the zuu fixed-capacity string library
(constant_string.hpp / constant_string_core.hpp and the fstring variant in
include/fstring_core.hpp, fstring_algorithms.hpp, fstring_convertions.hpp).

Modelling conventions.

Character units are modelled as natural numbers; the character-unit zero
value (the terminator) is the number 0.  A string value is a structure
holding the compile-time capacity, the buffer and the current length; the
buffer data_[Cap + 1] is modelled as a total function from indices to
units (positions at or beyond Cap + 1 correspond to memory outside the
array; a C++ access there is out of bounds, and the model merely records
such reads and writes so that the defined parts of an execution remain
visible).

size_type is the 64-bit unsigned size_t.  Its arithmetic is modelled as
exact natural arithmetic wherever the source guarantees no wraparound,
and with an explicit modulus 2^64 at the one place where wraparound is
reachable from a public call (basic_fstring::erase).  Signed integer
arithmetic in the conversion routines is modelled as two's-complement
wrap-around at the declared width, matching the behaviour the library
relies on.

The helper header fstring_utils.hpp is not present in the sources; the
detail helpers it declares (min, copy, move, fill, length, find_str,
is_space, is_digit) are used by the files that are present with their
conventional memcpy/memmove/strlen meanings, and are modelled from the
specification where noted.
-/

namespace Zuu

/-- Number of values of the 64-bit size_type: size_t arithmetic is modulo
this constant. -/
def usize : Nat := 2 ^ 64

/-- Sentinel value npos = static_cast of -1 to size_type, i.e. 2^64 - 1. -/
def npos : Nat := usize - 1

/-- A single store data_[i] = v into a buffer modelled as a function. -/
def upd (f : Nat → Nat) (i v : Nat) : Nat → Nat :=
  fun j => if j = i then v else f j

/-- Store the units of a list consecutively starting at index i
(detail::copy / memcpy of a known unit count). -/
def writeSeq (f : Nat → Nat) : Nat → List Nat → (Nat → Nat)
  | _, [] => f
  | i, x :: xs => writeSeq (upd f i x) (i + 1) xs

/-- Read n consecutive units starting at index i. -/
def readSeq (f : Nat → Nat) (i n : Nat) : List Nat :=
  (List.range n).map (fun j => f (i + j))

/-- A fixed-capacity string object: the capacity template argument, the
buffer data_[Cap + 1] and the length counter. Shared by the two
implementations basic_fstring and zuu::string, whose member functions are
modelled in their own namespaces below. -/
structure Fstr where
  cap : Nat
  buf : Nat → Nat
  len : Nat

/-- The significant units buffer[0, length), i.e. the observable content. -/
def Fstr.content (s : Fstr) : List Nat :=
  (List.range s.len).map s.buf

/-- Storage invariants I1 and I2 of the specification: the terminator sits
at buffer[length] and length never exceeds the capacity. -/
def Fstr.Wf (s : Fstr) : Prop :=
  s.len ≤ s.cap ∧ s.buf s.len = 0

instance (s : Fstr) : Decidable s.Wf := by
  unfold Fstr.Wf; infer_instance

/-- Length of a null-terminated character sequence (detail::length /
detail::strlen: count units before the first zero unit). -/
def cstrlen (l : List Nat) : Nat :=
  (l.takeWhile (fun c => c != 0)).length

/-- A default-constructed string: value-initialised buffer (all zero) and
length 0. -/
def Fstr.mk0 (cap : Nat) : Fstr :=
  ⟨cap, fun _ => 0, 0⟩

-- ===================== basic_fstring (fstring_core.hpp) =====================

namespace basic_fstring

/-- basic_fstring::store: length_ = min(capacity, len); copy len units;
write the terminator (fstring_core.hpp lines 61-66).  The source sequence
is passed as the list of units the pointer refers to. -/
def store (s : Fstr) (src : List Nat) (n : Nat) : Fstr :=
  let len1 := Nat.min s.cap n
  let buf1 := writeSeq s.buf 0 (src.take len1)
  ⟨s.cap, upd buf1 len1 0, len1⟩

/-- Construction of a basic_fstring from a character sequence of length
src.length (the pointer/length and literal constructors both reduce to
store with the source length). -/
def ofList (cap : Nat) (src : List Nat) : Fstr :=
  store (Fstr.mk0 cap) src src.length

/-- basic_fstring::append(const_pointer, size_type): when the string is not
full, copy min(available(), len) units to the end, advance the length and
re-terminate (fstring_core.hpp lines 352-360). -/
def append_str (s : Fstr) (src : List Nat) (n : Nat) : Fstr :=
  if s.len = s.cap then s
  else
    let count := Nat.min (s.cap - s.len) n
    let buf1 := writeSeq s.buf s.len (src.take count)
    ⟨s.cap, upd buf1 (s.len + count) 0, s.len + count⟩

/-- basic_fstring::append(value_type): if not full, data_[length_++] = ch
and re-terminate. -/
def append_ch (s : Fstr) (ch : Nat) : Fstr :=
  if s.len = s.cap then s
  else ⟨s.cap, upd (upd s.buf s.len ch) (s.len + 1) 0, s.len + 1⟩

/-- basic_fstring::pop_back: if non-empty, data_[--length_] = 0. -/
def pop_back (s : Fstr) : Fstr :=
  if s.len = 0 then s
  else ⟨s.cap, upd s.buf (s.len - 1) 0, s.len - 1⟩

/-- basic_fstring::clear: length_ = 0 and data_[0] = 0. -/
def clear (s : Fstr) : Fstr :=
  ⟨s.cap, upd s.buf 0 0, 0⟩

/-- basic_fstring::shift_left (fstring_core.hpp lines 76-80): move
length_ - index - count units from index + count down to index.  Both the
unit count and the source position are size_t expressions; they are
reduced modulo 2^64 because erase can reach this helper with a count for
which they wrap (the pointer arithmetic data_ + index + count is then out
of bounds in C++; the model records the resulting reads and writes). -/
def shift_left (s : Fstr) (index count : Nat) : Fstr :=
  if count = 0 ∨ s.len ≤ index then s
  else
    let moveCount := (s.len - index + usize - count % usize) % usize
    let srcOff := (index + count) % usize
    ⟨s.cap, writeSeq s.buf index (readSeq s.buf srcOff moveCount), s.len⟩

/-- basic_fstring::erase (fstring_core.hpp lines 443-454): if index is in
range, either truncate at index (count == npos, or index + count reaches
the end — a size_t sum, taken modulo 2^64) or shift the tail left and
subtract count from the length (again size_t arithmetic modulo 2^64);
finally write the terminator at the new length. -/
def erase (s : Fstr) (index count : Nat) : Fstr :=
  if index < s.len then
    let s1 : Fstr :=
      if count = npos ∨ s.len ≤ (index + count) % usize then
        ⟨s.cap, s.buf, index⟩
      else
        let s2 := shift_left s index count
        ⟨s2.cap, s2.buf, (s2.len + usize - count % usize) % usize⟩
    ⟨s1.cap, upd s1.buf s1.len 0, s1.len⟩
  else s

end basic_fstring

/-- The one hard-failure error of the library: std::out_of_range thrown by
the checked accessors. -/
inductive CppError where
  | out_of_range
  deriving DecidableEq

/-- fstring_config.hpp: bounds checking is enabled unless
FSTRING_DISABLE_BOUNDS_CHECK is defined, which the repository never
defines. -/
def enable_bounds_check : Bool := true

namespace basic_fstring

/-- basic_fstring::at (fstring_core.hpp lines 186-193): under the
configured bounds check, throw std::out_of_range when index >= length_,
otherwise return data_[index]. -/
def at_ (s : Fstr) (index : Nat) : Except CppError Nat :=
  if enable_bounds_check ∧ s.len ≤ index then .error .out_of_range
  else .ok (s.buf index)

/-- Modelled from the spec: detail::find_str of the absent
fstring_utils.hpp searches a haystack of n units for the first occurrence
of a needle of len units, an empty needle matching immediately; it
returns the offset of the first match, if any. -/
def find_str (hay : List Nat) (n : Nat) (needle : List Nat) (nl : Nat) : Option Nat :=
  (List.range (n + 1 - nl)).find? (fun o => decide ((hay.drop o).take nl = needle.take nl))

/-- basic_fstring::find(const_pointer, size_type) (fstring_core.hpp lines
572-577): return npos when pos >= length_, otherwise delegate to
detail::find_str on the tail data_ + pos and convert the pointer result
back to an index. -/
def find (s : Fstr) (needle : List Nat) (pos : Nat) : Nat :=
  if s.len ≤ pos then npos
  else
    let nl := cstrlen needle
    match find_str (readSeq s.buf pos (s.len - pos)) (s.len - pos) needle nl with
    | some o => pos + o
    | none => npos

/-- The defaulted operator<=> of basic_fstring (fstring_core.hpp line
539): lexicographic member-wise comparison, the data_ array (all Cap + 1
units, padding beyond the terminator included) first, then length_.
Same-capacity ordering comparisons are rewritten by the compiler in
terms of this operator.  (Equality is not: basic_fstring declares
operator== members at lines 542 and 548, so no implicit member-wise
operator== accompanies the defaulted <=>; the same-capacity operator==
is the content-based template modelled below as basic_fstring.eq.) -/
def cmp_default (s t : Fstr) : Ordering :=
  match (List.range (s.cap + 1)).findSome?
      (fun j => if s.buf j < t.buf j then some Ordering.lt
                else if t.buf j < s.buf j then some Ordering.gt else none) with
  | some o => o
  | none => compare s.len t.len

end basic_fstring

-- ================= zuu::string (constant_string.hpp and core) =================

namespace zstring

/-- string::assign_impl (constant_string.hpp lines 207-213): len_ =
count < N ? count : N; copy len_ units; terminate. -/
def assign_impl (s : Fstr) (src : List Nat) (count : Nat) : Fstr :=
  let len1 := if count < s.cap then count else s.cap
  let buf1 := writeSeq s.buf 0 (src.take len1)
  ⟨s.cap, upd buf1 len1 0, len1⟩

/-- Construction of a zuu::string from a character sequence of length
src.length (the pointer and array constructors both call assign_impl with
the source length). -/
def ofList (cap : Nat) (src : List Nat) : Fstr :=
  assign_impl (Fstr.mk0 cap) src src.length

/-- string::append(const CharT*, size_type) of constant_string_core.hpp
lines 421-429: return 0 for a null / empty request or a full string,
otherwise copy to_copy = min(count, N - len_) units, advance the length,
re-terminate and return to_copy, the number of units actually added. -/
def append (s : Fstr) (src : List Nat) (count : Nat) : Fstr × Nat :=
  if count = 0 ∨ s.cap ≤ s.len then (s, 0)
  else
    let toCopy := Nat.min count (s.cap - s.len)
    let buf1 := writeSeq s.buf s.len (src.take toCopy)
    (⟨s.cap, upd buf1 (s.len + toCopy) 0, s.len + toCopy⟩, toCopy)

/-- string::append(size_type, CharT) of constant_string_core.hpp lines
431-439: like append of a sequence, with the source replaced by count
repetitions of the fill unit. -/
def append_fill (s : Fstr) (count ch : Nat) : Fstr × Nat :=
  if count = 0 ∨ s.cap ≤ s.len then (s, 0)
  else
    let toAdd := Nat.min count (s.cap - s.len)
    let buf1 := writeSeq s.buf s.len (List.replicate toAdd ch)
    (⟨s.cap, upd buf1 (s.len + toAdd) 0, s.len + toAdd⟩, toAdd)

/-- string::at (constant_string.hpp lines 285-293): throw
std::out_of_range when pos >= len_, else return data_[pos]. -/
def at_ (s : Fstr) (pos : Nat) : Except CppError Nat :=
  if s.len ≤ pos then .error .out_of_range
  else .ok (s.buf pos)

/-- detail::strcmp (constant_string.hpp lines 68-76): scan the first len
unit pairs in order; report -1 or 1 at the first strict inequality, 0 if
none is found. The loop reads exactly the first len units of each
buffer, here presented as the element-wise scan of those two prefixes. -/
def strcmpUnits : List Nat → List Nat → Int
  | [], _ => 0
  | _, [] => 0
  | a :: as, b :: bs =>
    if a < b then -1 else if b < a then 1 else strcmpUnits as bs

/-- string::compare (constant_string.hpp lines 687-695): detail::strcmp on
the first min(len_, other.length()) units, then the length tie-break. -/
def compare (s t : Fstr) : Int :=
  if strcmpUnits (readSeq s.buf 0 (Nat.min s.len t.len))
      (readSeq t.buf 0 (Nat.min s.len t.len)) ≠ 0 then
    strcmpUnits (readSeq s.buf 0 (Nat.min s.len t.len))
      (readSeq t.buf 0 (Nat.min s.len t.len))
  else if s.len < t.len then -1
  else if t.len < s.len then 1
  else 0

/-- string::operator== (constant_string.hpp lines 711-714): compare == 0. -/
def eq (s t : Fstr) : Bool :=
  compare s t == 0

/-- string::operator<=> (constant_string.hpp lines 720-726): the sign of
compare as a strong ordering. -/
def cmp (s t : Fstr) : Ordering :=
  if compare s t < 0 then .lt
  else if 0 < compare s t then .gt
  else .eq

/-- string::find(const CharT*, size_type) (constant_string.hpp lines
564-580): an empty needle matches at pos when pos <= len_ and otherwise
fails; a needle longer than the string fails; else scan i from pos to
len_ - str_len for the first position where all needle units match. -/
def find (s : Fstr) (needle : List Nat) (pos : Nat) : Nat :=
  let nl := cstrlen needle
  if nl = 0 then (if pos ≤ s.len then pos else npos)
  else if s.len < nl then npos
  else
    match ((List.range (s.len - nl + 1)).drop pos).find?
        (fun i => decide (readSeq s.buf i nl = needle.take nl)) with
    | some i => i
    | none => npos

end zstring

/-- basic_fstring::operator== for two strings of one capacity
(fstring_core.hpp lines 541-546).  basic_fstring declares operator==
members (lines 542 and 548), so no implicit member-wise equality
accompanies the defaulted operator<=>, and a same-capacity == resolves
to the cross-capacity template at N = Cap: cmp = detail::compare of the
first min(length_, other.length_) units of the two buffers; when
cmp != 0 the result is cmp == 0, otherwise length_ == other.length_.
detail::compare lives in the absent fstring_utils.hpp and is modelled as
the conventional unit-wise tri-state scan — the same algorithm as
constant_string's detail::strcmp, which is present in the sources. -/
def basic_fstring.eq (s t : Fstr) : Bool :=
  if zstring.strcmpUnits (readSeq s.buf 0 (Nat.min s.len t.len))
      (readSeq t.buf 0 (Nat.min s.len t.len)) ≠ 0 then
    zstring.strcmpUnits (readSeq s.buf 0 (Nat.min s.len t.len))
      (readSeq t.buf 0 (Nat.min s.len t.len)) == 0
  else s.len == t.len

-- =================== algorithms (fstring_algorithms.hpp) ===================

namespace algorithms

/-- The loop of algorithms::split (fstring_algorithms.hpp lines 175-184):
scan the units str[i] for i < length while fewer than MaxParts segments
were emitted; a delimiter flushes the pending segment when it is
non-empty; any other unit is appended to the pending segment. -/
def splitLoop (delim maxParts : Nat) :
    List Nat → List Fstr → Fstr → List Fstr × Fstr
  | [], parts, cur => (parts, cur)
  | c :: cs, parts, cur =>
    if maxParts ≤ parts.length then (parts, cur)
    else if c = delim then
      if cur.len ≠ 0 then
        splitLoop delim maxParts cs (parts ++ [cur]) (basic_fstring.clear cur)
      else splitLoop delim maxParts cs parts cur
    else splitLoop delim maxParts cs parts (basic_fstring.append_ch cur c)

/-- The postlude of algorithms::split (fstring_algorithms.hpp lines
186-188): emit the trailing pending segment when it is non-empty and a
slot remains. -/
def splitFinish (maxParts : Nat) (r : List Fstr × Fstr) : List Fstr :=
  if r.2.len ≠ 0 ∧ r.1.length < maxParts then r.1 ++ [r.2] else r.1

/-- algorithms::split (fstring_algorithms.hpp lines 165-191): run the scan
loop starting from a default-constructed pending segment, then the
postlude. -/
def split (s : Fstr) (delim maxParts : Nat) : List Fstr :=
  splitFinish maxParts (splitLoop delim maxParts s.content [] (Fstr.mk0 s.cap))

/-- Modelled from the spec: the reference segmentation that split is
compared against. chunks d l is the list of maximal delimiter-free runs
of l, in scan order, including the empty runs produced by leading
delimiters or delimiter runs; naive split semantics would return exactly
these. -/
def chunks (d : Nat) : List Nat → List (List Nat)
  | [] => [[]]
  | c :: cs =>
    if c = d then [] :: chunks d cs
    else
      match chunks d cs with
      | [] => [[c]]
      | h :: t => (c :: h) :: t

end algorithms

-- ================== conversions (fstring_convertions.hpp) ==================

namespace conversions

/-- The digit-to-character step of to_fstring(value, base)
(fstring_convertions.hpp line 140): digits below ten map to the
characters 0-9 (codes 48-57), the rest to a-z (codes 97-122). -/
def digitChar (d : Nat) : Nat :=
  if d < 10 then 48 + d else 97 + (d - 10)

/-- The digit-extraction loop of to_fstring(value, base)
(fstring_convertions.hpp lines 138-142): while uvalue > 0, emit
uvalue % base and divide; the digits come out least significant first. -/
def digitsLE (b : Nat) : Nat → List Nat
  | 0 => []
  | n + 1 =>
    if h : 2 ≤ b then ((n + 1) % b) :: digitsLE b ((n + 1) / b)
    else []
  decreasing_by exact Nat.div_lt_self (Nat.succ_pos n) h

/-- Two's-complement wrap-around of an integer at width w: the value of
storing z into a signed w-bit integer (C++20 signed integers are
two's-complement; conversion to a signed type is reduction modulo 2^w
into the representable range). -/
def wrapS (w : Nat) (z : Int) : Int :=
  (z + 2 ^ (w - 1)) % 2 ^ w - 2 ^ (w - 1)

/-- Arithmetic of the accumulator of parse_int at width w: wrap-around
signed arithmetic for a signed IntT, reduction modulo 2^w for an
unsigned one. -/
def wrapInt (sg : Bool) (w : Nat) (z : Int) : Int :=
  if sg then wrapS w z else z % 2 ^ w

/-- to_fstring(IntT value, int base) (fstring_convertions.hpp lines
108-153) for an integer type of width w (signed when sg): reject a base
outside [2, 36] with an empty result; print 0 as the single digit 0;
otherwise take the magnitude uvalue (the unsigned cast of -value for a
negative value — two's-complement arithmetic reduced modulo 2^w),
extract its digits, then append the sign (for a negative value) and the
digits most significant first into a basic_fstring of capacity w + 2
(the source's sizeof * 8 + 2). -/
def to_fstring (w : Nat) (sg : Bool) (value : Int) (base : Int) : Fstr :=
  if base < 2 ∨ 36 < base then Fstr.mk0 1
  else if value = 0 then basic_fstring.append_ch (Fstr.mk0 (w + 2)) 48
  else if sg ∧ value < 0 then
    (((digitsLE base.toNat ((-value % (2 ^ w : Int)).toNat)).reverse).map
        digitChar).foldl basic_fstring.append_ch
      (basic_fstring.append_ch (Fstr.mk0 (w + 2)) 45)
  else
    (((digitsLE base.toNat ((value % (2 ^ w : Int)).toNat)).reverse).map
        digitChar).foldl basic_fstring.append_ch (Fstr.mk0 (w + 2))

/-- The character-classification of the parse_int loop
(fstring_convertions.hpp lines 269-278): 0-9, a-z and A-Z map to digit
values, every other unit to -1. -/
def decodeDigit (ch : Nat) : Int :=
  if 48 ≤ ch ∧ ch ≤ 57 then (ch : Int) - 48
  else if 97 ≤ ch ∧ ch ≤ 122 then 10 + ((ch : Int) - 97)
  else if 65 ≤ ch ∧ ch ≤ 90 then 10 + ((ch : Int) - 65)
  else -1

/-- The digit loop of parse_int (fstring_convertions.hpp lines 268-283):
fold over the remaining units; stop at the first unit whose digit value
is negative or not below the base; otherwise result = result * base +
digit in the arithmetic of IntT (wrap-around at width w). -/
def parseDigits (sg : Bool) (w : Nat) (base : Int) : List Nat → Int → Int
  | [], acc => acc
  | ch :: rest, acc =>
    if decodeDigit ch < 0 ∨ base ≤ decodeDigit ch then acc
    else parseDigits sg w base rest (wrapInt sg w (acc * base + decodeDigit ch))

/-- parse_int (fstring_convertions.hpp lines 249-286) for an integer type
of width w (signed when sg): an empty string parses to 0; a signed type
consumes one leading - (setting the negative flag) or + sign, so the
digit loop starts at unit 1 in those two cases and at unit 0 otherwise;
the loop accumulates in the arithmetic of IntT; a negative sign negates
the result (again in the arithmetic of IntT). -/
def parse_int (w : Nat) (sg : Bool) (s : Fstr) (base : Int) : Int :=
  if s.len = 0 then 0
  else if sg ∧ s.buf 0 = 45 then
    wrapInt sg w (- parseDigits sg w base (s.content.drop 1) 0)
  else if sg ∧ s.buf 0 = 43 then
    parseDigits sg w base (s.content.drop 1) 0
  else
    parseDigits sg w base s.content 0

/-- The value of a big-endian digit list: the exact number the parse_int
loop accumulates when no arithmetic wrap-around occurs. -/
def valBE (base : Int) (ds : List Nat) : Int :=
  ds.foldl (fun (acc : Int) (d : Nat) => acc * base + (d : Int)) 0

end conversions

-- ============================ buffer lemmas ============================

theorem upd_apply (f : Nat → Nat) (i v j : Nat) :
    upd f i v j = if j = i then v else f j := rfl

theorem writeSeq_apply (xs : List Nat) : ∀ (f : Nat → Nat) (i j : Nat),
    writeSeq f i xs j =
      if i ≤ j ∧ j < i + xs.length then xs.getD (j - i) 0 else f j := by
  induction xs with
  | nil =>
    intro f i j
    simp only [writeSeq, List.length_nil, Nat.add_zero]
    rw [if_neg (by omega)]
  | cons x xs ih =>
    intro f i j
    rw [writeSeq, ih]
    rcases Nat.lt_trichotomy j i with hj | hj | hj
    · rw [if_neg (by omega), if_neg (by simp only [List.length_cons]; omega),
        upd_apply, if_neg (by omega)]
    · rw [if_neg (by omega), upd_apply, if_pos hj,
        if_pos (by simp only [List.length_cons]; omega), hj, Nat.sub_self,
        List.getD_cons_zero]
    · by_cases h2 : j < i + 1 + xs.length
      · rw [if_pos (by omega),
          if_pos (by simp only [List.length_cons]; omega)]
        have hji : j - i = (j - (i + 1)) + 1 := by omega
        rw [hji, List.getD_cons_succ]
      · rw [if_neg (by omega),
          if_neg (by simp only [List.length_cons]; omega), upd_apply,
          if_neg (by omega)]

theorem range_map_getD (n : Nat) (l : List Nat) (h : n ≤ l.length) :
    (List.range n).map (fun i => l.getD i 0) = l.take n := by
  apply List.ext_getElem
  · simp [h]
  · intro i h1 h2
    have h3 : i < l.length := by
      simp only [List.length_map, List.length_range] at h1
      omega
    simp only [List.getElem_map, List.getElem_range, List.getElem_take]
    rw [List.getD_eq_getElem l 0 h3]

/-- Content of a string whose buffer was produced by a store of src at 0
followed by the terminator at len1. -/
theorem content_of_store (cap len1 : Nat) (src : List Nat) (f : Nat → Nat)
    (hlen : len1 ≤ src.length) :
    (Fstr.mk cap (upd (writeSeq f 0 (src.take len1)) len1 0) len1).content =
      src.take len1 := by
  show (List.range len1).map _ = _
  have : ∀ j < len1,
      upd (writeSeq f 0 (src.take len1)) len1 0 j = src.getD j 0 := by
    intro j hj
    rw [upd_apply, if_neg (by omega), writeSeq_apply]
    have hl : (src.take len1).length = len1 := by simp [hlen]
    rw [if_pos (by omega)]
    simp only [Nat.sub_zero]
    rw [List.getD_eq_getElem?_getD, List.getD_eq_getElem?_getD,
      List.getElem?_take]
    simp [hj]
  calc (List.range len1).map (upd (writeSeq f 0 (src.take len1)) len1 0)
      = (List.range len1).map (fun i => src.getD i 0) := by
        apply List.map_congr_left
        intro a ha
        exact this a (List.mem_range.mp ha)
    _ = src.take len1 := range_map_getD len1 src hlen

-- ======================== C3: construction ========================

/-- C3: For every capacity and every source sequence of length L, both
constructors (basic_fstring via store, zuu::string via assign_impl) yield
length min(L, Capacity), content equal to the first min(L, Capacity)
source units, the terminator at buffer[length], and the result is
well-formed; the constructors are total functions, so no error is
raised. -/
theorem construction_truncates_silently (cap : Nat) (src : List Nat) :
    ((basic_fstring.ofList cap src).len = Nat.min src.length cap ∧
      (basic_fstring.ofList cap src).content =
        src.take (Nat.min src.length cap) ∧
      (basic_fstring.ofList cap src).buf (basic_fstring.ofList cap src).len = 0 ∧
      (basic_fstring.ofList cap src).Wf) ∧
    ((zstring.ofList cap src).len = Nat.min src.length cap ∧
      (zstring.ofList cap src).content = src.take (Nat.min src.length cap) ∧
      (zstring.ofList cap src).buf (zstring.ofList cap src).len = 0 ∧
      (zstring.ofList cap src).Wf) := by
  have hmin : Nat.min cap src.length = Nat.min src.length cap := Nat.min_comm _ _
  have hz : (if src.length < cap then src.length else cap) =
      Nat.min cap src.length := by
    rw [show Nat.min cap src.length =
      if cap ≤ src.length then cap else src.length from rfl]
    by_cases h : src.length < cap
    · rw [if_pos h, if_neg (by omega)]
    · rw [if_neg h, if_pos (by omega)]
  have hb : basic_fstring.ofList cap src =
      Fstr.mk cap (upd (writeSeq (fun _ => 0) 0
        (src.take (Nat.min cap src.length))) (Nat.min cap src.length) 0)
        (Nat.min cap src.length) := rfl
  have hzs : zstring.ofList cap src =
      Fstr.mk cap (upd (writeSeq (fun _ => 0) 0
        (src.take (Nat.min cap src.length))) (Nat.min cap src.length) 0)
        (Nat.min cap src.length) := by
    show zstring.assign_impl (Fstr.mk0 cap) src src.length = _
    unfold zstring.assign_impl
    simp only [Fstr.mk0]
    rw [hz]
  have hle : Nat.min cap src.length ≤ src.length := Nat.min_le_right _ _
  have hcontent := content_of_store cap (Nat.min cap src.length) src
    (fun _ => 0) hle
  have hterm : upd (writeSeq (fun _ => 0) 0
      (src.take (Nat.min cap src.length))) (Nat.min cap src.length) 0
      (Nat.min cap src.length) = 0 := by
    rw [upd_apply, if_pos rfl]
  constructor
  · rw [hb]
    exact ⟨hmin, by rw [hcontent, hmin], hterm,
      ⟨Nat.min_le_left _ _, hterm⟩⟩
  · rw [hzs]
    exact ⟨hmin, by rw [hcontent, hmin], hterm,
      ⟨Nat.min_le_left _ _, hterm⟩⟩

/-- Witness for C3 at a concrete input: constructing a capacity-2 string
from a three-unit sequence truncates to length 2 with terminator. -/
theorem construction_truncates_silently_witness :
    (basic_fstring.ofList 2 [104, 105, 106]).len = 2 ∧
      (basic_fstring.ofList 2 [104, 105, 106]).content = [104, 105] ∧
      (zstring.ofList 2 [104, 105, 106]).content = [104, 105] := by
  have h := construction_truncates_silently 2 [104, 105, 106]
  exact ⟨h.1.1, h.1.2.1, h.2.2.1⟩

-- ======================== C4: checked access ========================

/-- C4: both checked accessors fail with the out_of_range error exactly
when the index reaches length() (the capacity plays no role), return the
stored unit otherwise, always fail at index length(), and always succeed
at length() - 1 on a non-empty string. -/
theorem at_checked_bounds (s : Fstr) (i : Nat) :
    ((zstring.at_ s i = .error .out_of_range ↔ s.len ≤ i) ∧
      (i < s.len → zstring.at_ s i = .ok (s.buf i)) ∧
      zstring.at_ s s.len = .error .out_of_range ∧
      (0 < s.len → zstring.at_ s (s.len - 1) = .ok (s.buf (s.len - 1)))) ∧
    ((basic_fstring.at_ s i = .error .out_of_range ↔ s.len ≤ i) ∧
      (i < s.len → basic_fstring.at_ s i = .ok (s.buf i)) ∧
      basic_fstring.at_ s s.len = .error .out_of_range ∧
      (0 < s.len →
        basic_fstring.at_ s (s.len - 1) = .ok (s.buf (s.len - 1)))) := by
  have hz : ∀ j, zstring.at_ s j =
      if s.len ≤ j then .error .out_of_range else .ok (s.buf j) := by
    intro j; rfl
  have hb : ∀ j, basic_fstring.at_ s j =
      if s.len ≤ j then .error .out_of_range else .ok (s.buf j) := by
    intro j
    unfold basic_fstring.at_ enable_bounds_check
    simp
  have core : ∀ (f : Fstr → Nat → Except CppError Nat),
      (∀ j, f s j =
        if s.len ≤ j then .error .out_of_range else .ok (s.buf j)) →
      (f s i = .error .out_of_range ↔ s.len ≤ i) ∧
        (i < s.len → f s i = .ok (s.buf i)) ∧
        f s s.len = .error .out_of_range ∧
        (0 < s.len → f s (s.len - 1) = .ok (s.buf (s.len - 1))) := by
    intro f hf
    refine ⟨?_, ?_, ?_, ?_⟩
    · rw [hf]
      constructor
      · intro h
        by_contra hc
        rw [if_neg hc] at h
        exact Except.noConfusion h
      · intro h; rw [if_pos h]
    · intro h; rw [hf, if_neg (by omega)]
    · rw [hf, if_pos le_rfl]
    · intro h; rw [hf, if_neg (by omega)]
  exact ⟨core zstring.at_ hz, core basic_fstring.at_ hb⟩

/-- Witness for C4 at a concrete input: on a length-2 string, index 1 is
readable, index 2 (the length) fails. -/
theorem at_checked_bounds_witness :
    zstring.at_ (zstring.ofList 5 [104, 105]) 1 = .ok 105 ∧
    zstring.at_ (zstring.ofList 5 [104, 105]) 2 = .error .out_of_range ∧
    basic_fstring.at_ (basic_fstring.ofList 5 [104, 105]) 1 = .ok 105 := by
  have h1 := (at_checked_bounds (zstring.ofList 5 [104, 105]) 1).1.2.1
    (by decide)
  have h2 := (at_checked_bounds (zstring.ofList 5 [104, 105]) 2).1.1.mpr
    (by decide)
  have h3 := (at_checked_bounds (basic_fstring.ofList 5 [104, 105]) 1).2.2.1
    (by decide)
  refine ⟨?_, h2, ?_⟩
  · rw [h1]; rfl
  · rw [h3]; rfl

-- ==================== content lemma for appends ====================

/-- Content of a string after writing xs at the end, advancing the length
by the number of written units and terminating: the old content followed
by xs. -/
theorem content_after_write (s : Fstr) (xs : List Nat) :
    (Fstr.mk s.cap (upd (writeSeq s.buf s.len xs) (s.len + xs.length) 0)
      (s.len + xs.length)).content = s.content ++ xs := by
  apply List.ext_getElem
  · simp [Fstr.content]
  · intro i h1 h2
    simp only [Fstr.content, List.getElem_map, List.getElem_range]
    rw [upd_apply]
    simp only [Fstr.content, List.length_map, List.length_range,
      List.length_append, List.getElem_map, List.getElem_range] at h1 h2 ⊢
    rw [if_neg (by omega), writeSeq_apply]
    by_cases hi : i < s.len
    · rw [if_neg (by omega)]
      rw [List.getElem_append_left (by simpa using hi)]
      simp
    · rw [if_pos (by omega)]
      rw [List.getElem_append_right (by simpa using hi)]
      rw [List.getD_eq_getElem xs 0 (by simpa using (by omega : i - s.len < xs.length))]
      simp

-- ======================== C2: saturating append ========================

/-- Nat.min as its defining conditional. -/
theorem min_ite (a b : Nat) : Nat.min a b = if a ≤ b then a else b := rfl

/-- Helper: the state and count produced by the writing branch of the
string appends, for an arbitrary written list. -/
theorem append_core_spec (s : Fstr) (xs : List Nat) (_h : s.Wf) :
    (Fstr.mk s.cap (upd (writeSeq s.buf s.len xs) (s.len + xs.length) 0)
      (s.len + xs.length)).content = s.content ++ xs ∧
    (s.len + xs.length ≤ s.cap →
      (Fstr.mk s.cap (upd (writeSeq s.buf s.len xs) (s.len + xs.length) 0)
        (s.len + xs.length)).Wf) := by
  refine ⟨content_after_write s xs, fun hle => ⟨hle, ?_⟩⟩
  show upd (writeSeq s.buf s.len xs) (s.len + xs.length) 0
    (s.len + xs.length) = 0
  rw [upd_apply, if_pos rfl]

/-- Helper: content, length, terminator and well-formedness of the state
written by an append that copies the first m units of src. -/
theorem append_write_spec (s : Fstr) (src : List Nat) (m : Nat) (h : s.Wf)
    (hm : m ≤ src.length) (hcap : m ≤ s.cap - s.len) :
    (Fstr.mk s.cap (upd (writeSeq s.buf s.len (src.take m)) (s.len + m) 0)
        (s.len + m)).content = s.content ++ src.take m ∧
      (Fstr.mk s.cap (upd (writeSeq s.buf s.len (src.take m)) (s.len + m) 0)
        (s.len + m)).Wf := by
  have hlen : s.len ≤ s.cap := h.1
  have hl : (src.take m).length = m := by simp; omega
  have hc := append_core_spec s (src.take m) h
  rw [hl] at hc
  exact ⟨hc.1, hc.2 (by omega)⟩

/-- C2: appending a request of k units to a string with available() = a
copies min(k, a) units and reports that number: when k > a the result is
full (length() = Capacity) and exactly the first a units were copied;
when k <= a all k units land.  Stated for zuu::string append(seq) (k the
sequence length) and append(count, unit) (k the repeat count), which
report the appended count, and for basic_fstring append(seq), which
returns the string itself.  All results are well-formed. -/
theorem append_saturates (s : Fstr) (src : List Nat) (count ch : Nat)
    (h : s.Wf) :
    ((s.cap - s.len < src.length →
        (zstring.append s src src.length).2 = s.cap - s.len ∧
        (zstring.append s src src.length).1.len = s.cap ∧
        (zstring.append s src src.length).1.content =
          s.content ++ src.take (s.cap - s.len)) ∧
      (src.length ≤ s.cap - s.len →
        (zstring.append s src src.length).2 = src.length ∧
        (zstring.append s src src.length).1.content = s.content ++ src) ∧
      (zstring.append s src src.length).1.Wf) ∧
    ((s.cap - s.len < count →
        (zstring.append_fill s count ch).2 = s.cap - s.len ∧
        (zstring.append_fill s count ch).1.len = s.cap ∧
        (zstring.append_fill s count ch).1.content =
          s.content ++ List.replicate (s.cap - s.len) ch) ∧
      (count ≤ s.cap - s.len →
        (zstring.append_fill s count ch).2 = count ∧
        (zstring.append_fill s count ch).1.content =
          s.content ++ List.replicate count ch) ∧
      (zstring.append_fill s count ch).1.Wf) ∧
    ((s.cap - s.len < src.length →
        (basic_fstring.append_str s src src.length).len = s.cap ∧
        (basic_fstring.append_str s src src.length).content =
          s.content ++ src.take (s.cap - s.len)) ∧
      (src.length ≤ s.cap - s.len →
        (basic_fstring.append_str s src src.length).content =
          s.content ++ src) ∧
      (basic_fstring.append_str s src src.length).Wf) := by
  have hlen : s.len ≤ s.cap := h.1
  refine ⟨?_, ?_, ?_⟩
  · -- zstring.append with the source sequence, k = src.length
    by_cases h0 : src.length = 0 ∨ s.cap ≤ s.len
    · have hr : zstring.append s src src.length = (s, 0) := by
        unfold zstring.append
        rw [if_pos h0]
      rw [hr]
      refine ⟨fun hk => ?_, fun hk => ?_, h⟩
      · have ha : s.cap - s.len = 0 := by omega
        refine ⟨ha.symm, by show s.len = s.cap; omega, ?_⟩
        rw [ha]
        simp
      · have hs0 : src.length = 0 := by omega
        rw [List.eq_nil_of_length_eq_zero hs0]
        exact ⟨rfl, by simp⟩
    · by_cases hk : s.cap - s.len < src.length
      · have hm : Nat.min src.length (s.cap - s.len) = s.cap - s.len := by
          rw [min_ite, if_neg (by omega)]
        have hr : zstring.append s src src.length =
            (Fstr.mk s.cap (upd (writeSeq s.buf s.len
                (src.take (s.cap - s.len))) (s.len + (s.cap - s.len)) 0)
              (s.len + (s.cap - s.len)), s.cap - s.len) := by
          unfold zstring.append
          rw [if_neg h0]
          simp only [hm]
        rw [hr]
        have hw := append_write_spec s src (s.cap - s.len) h (by omega)
          le_rfl
        refine ⟨fun _ => ⟨rfl, by show s.len + (s.cap - s.len) = s.cap; omega,
          hw.1⟩, fun hle => by omega, hw.2⟩
      · have hm : Nat.min src.length (s.cap - s.len) = src.length := by
          rw [min_ite, if_pos (by omega)]
        have hr : zstring.append s src src.length =
            (Fstr.mk s.cap (upd (writeSeq s.buf s.len
                (src.take src.length)) (s.len + src.length) 0)
              (s.len + src.length), src.length) := by
          unfold zstring.append
          rw [if_neg h0]
          simp only [hm]
        rw [hr]
        have hw := append_write_spec s src src.length h le_rfl (by omega)
        refine ⟨fun hlt => by omega, fun _ => ⟨rfl, ?_⟩, hw.2⟩
        rw [hw.1, List.take_length]
  · -- zstring.append_fill, k = count
    by_cases h0 : count = 0 ∨ s.cap ≤ s.len
    · have hr : zstring.append_fill s count ch = (s, 0) := by
        unfold zstring.append_fill
        rw [if_pos h0]
      rw [hr]
      refine ⟨fun hk => ?_, fun hk => ?_, h⟩
      · have ha : s.cap - s.len = 0 := by omega
        refine ⟨ha.symm, by show s.len = s.cap; omega, ?_⟩
        rw [ha]
        simp
      · have hc0 : count = 0 := by omega
        rw [hc0]
        simp
    · by_cases hk : s.cap - s.len < count
      · have hm : Nat.min count (s.cap - s.len) = s.cap - s.len := by
          rw [min_ite, if_neg (by omega)]
        have hr : zstring.append_fill s count ch =
            (Fstr.mk s.cap (upd (writeSeq s.buf s.len
                (List.replicate (s.cap - s.len) ch))
                (s.len + (s.cap - s.len)) 0)
              (s.len + (s.cap - s.len)), s.cap - s.len) := by
          unfold zstring.append_fill
          rw [if_neg h0]
          simp only [hm]
        rw [hr]
        have hc := append_core_spec s (List.replicate (s.cap - s.len) ch) h
        rw [List.length_replicate] at hc
        refine ⟨fun _ => ⟨rfl, by show s.len + (s.cap - s.len) = s.cap; omega,
          hc.1⟩, fun hle => by omega, hc.2 (by omega)⟩
      · have hm : Nat.min count (s.cap - s.len) = count := by
          rw [min_ite, if_pos (by omega)]
        have hr : zstring.append_fill s count ch =
            (Fstr.mk s.cap (upd (writeSeq s.buf s.len
                (List.replicate count ch)) (s.len + count) 0)
              (s.len + count), count) := by
          unfold zstring.append_fill
          rw [if_neg h0]
          simp only [hm]
        rw [hr]
        have hc := append_core_spec s (List.replicate count ch) h
        rw [List.length_replicate] at hc
        refine ⟨fun hlt => by omega, fun _ => ⟨rfl, hc.1⟩, hc.2 (by omega)⟩
  · -- basic_fstring.append_str, k = src.length
    by_cases h0 : s.len = s.cap
    · have hr : basic_fstring.append_str s src src.length = s := by
        unfold basic_fstring.append_str
        rw [if_pos h0]
      rw [hr]
      have ha : s.cap - s.len = 0 := by omega
      refine ⟨fun hk => ⟨h0, ?_⟩, fun hk => ?_, h⟩
      · rw [ha]; simp
      · have hs0 : src.length = 0 := by omega
        rw [List.eq_nil_of_length_eq_zero hs0]
        simp
    · by_cases hk : s.cap - s.len < src.length
      · have hm : Nat.min (s.cap - s.len) src.length = s.cap - s.len := by
          rw [min_ite, if_pos (by omega)]
        have hr : basic_fstring.append_str s src src.length =
            Fstr.mk s.cap (upd (writeSeq s.buf s.len
                (src.take (s.cap - s.len))) (s.len + (s.cap - s.len)) 0)
              (s.len + (s.cap - s.len)) := by
          unfold basic_fstring.append_str
          rw [if_neg h0]
          simp only [hm]
        rw [hr]
        have hw := append_write_spec s src (s.cap - s.len) h (by omega)
          le_rfl
        refine ⟨fun _ => ⟨by show s.len + (s.cap - s.len) = s.cap; omega,
          hw.1⟩, fun hle => by omega, hw.2⟩
      · have hm : Nat.min (s.cap - s.len) src.length = src.length := by
          rw [min_ite]
          split <;> omega
        have hr : basic_fstring.append_str s src src.length =
            Fstr.mk s.cap (upd (writeSeq s.buf s.len
                (src.take src.length)) (s.len + src.length) 0)
              (s.len + src.length) := by
          unfold basic_fstring.append_str
          rw [if_neg h0]
          simp only [hm]
        rw [hr]
        have hw := append_write_spec s src src.length h le_rfl (by omega)
        refine ⟨fun hlt => by omega, fun _ => ?_, hw.2⟩
        rw [hw.1, List.take_length]

/-- Witness for C2 at the specification's own concrete scenario: a
capacity-10 string holding hello has available() = 5; appending the
six units of " world" copies exactly 5 units, reports 5, and leaves the
full string "hello worl". -/
theorem append_saturates_witness :
    (zstring.append (zstring.ofList 10 [104, 101, 108, 108, 111])
        [32, 119, 111, 114, 108, 100] 6).2 = 5 ∧
    (zstring.append (zstring.ofList 10 [104, 101, 108, 108, 111])
        [32, 119, 111, 114, 108, 100] 6).1.len = 10 ∧
    (zstring.append (zstring.ofList 10 [104, 101, 108, 108, 111])
        [32, 119, 111, 114, 108, 100] 6).1.content =
      [104, 101, 108, 108, 111, 32, 119, 111, 114, 108] := by
  have h := (append_saturates (zstring.ofList 10 [104, 101, 108, 108, 111])
    [32, 119, 111, 114, 108, 100] 0 0 (by decide)).1.1 (by decide)
  have e : (6 : Nat) = [32, 119, 111, 114, 108, 100].length := rfl
  rw [e]
  refine ⟨h.1, h.2.1, ?_⟩
  rw [h.2.2]
  decide

-- ================== C1: invariant violation in erase ==================

/-- C1: evaluation of the code at the failing input.  On the well-formed
capacity-3 string abc, the public call erase(2, 2^64 - 2) takes the
shifting branch (2 + (2^64 - 2) wraps to 0 < 3 in size_t, and the count
is not npos), and the wrapped length update length_ -= count leaves
length() = 5 > Capacity = 3: the operation returns with the storage
invariants violated (in C++ the accompanying moves and the terminator
store are out-of-bounds writes). -/
theorem erase_wraparound_breaks_invariants :
    (basic_fstring.ofList 3 [97, 98, 99]).Wf ∧
    (basic_fstring.erase (basic_fstring.ofList 3 [97, 98, 99]) 2
      (usize - 2)).len = 5 ∧
    (basic_fstring.erase (basic_fstring.ofList 3 [97, 98, 99]) 2
      (usize - 2)).cap = 3 ∧
    ¬ (basic_fstring.erase (basic_fstring.ofList 3 [97, 98, 99]) 2
      (usize - 2)).Wf := by
  refine ⟨by decide, by decide, rfl, ?_⟩
  intro h
  have h1 := h.1
  have h2 : (basic_fstring.erase (basic_fstring.ofList 3 [97, 98, 99]) 2
      (usize - 2)).len = 5 := by decide
  have h3 : (basic_fstring.erase (basic_fstring.ofList 3 [97, 98, 99]) 2
      (usize - 2)).cap = 3 := rfl
  omega

-- ==================== C5: compare and equality ====================

/-- Modelled from the spec: lexicographic unit-by-unit comparison on the
overlapping prefix, tie-broken by length (shorter < longer when the
prefixes agree), as a signed tri-state. -/
def specCompare : List Nat → List Nat → Int
  | [], [] => 0
  | [], _ :: _ => -1
  | _ :: _, [] => 1
  | a :: as, b :: bs =>
    if a < b then -1 else if b < a then 1 else specCompare as bs

theorem specCompare_eq_zero : ∀ x y : List Nat,
    specCompare x y = 0 ↔ x = y := by
  intro x
  induction x with
  | nil =>
    intro y
    cases y with
    | nil => simp [specCompare]
    | cons b bs => simp [specCompare]
  | cons a as ih =>
    intro y
    cases y with
    | nil => simp [specCompare]
    | cons b bs =>
      rw [specCompare]
      by_cases hab : a < b
      · rw [if_pos hab]
        constructor
        · intro h; exact absurd h (by decide)
        · intro h
          injection h with h1 h2
          omega
      · rw [if_neg hab]
        by_cases hba : b < a
        · rw [if_pos hba]
          constructor
          · intro h; exact absurd h (by decide)
          · intro h
            injection h with h1 h2
            omega
        · rw [if_neg hba]
          have hab2 : a = b := by omega
          rw [ih bs, hab2]
          constructor
          · intro h; rw [h]
          · intro h; injection h

theorem strcmpUnits_spec : ∀ x y : List Nat,
    specCompare x y =
      (if zstring.strcmpUnits (x.take (Nat.min x.length y.length))
          (y.take (Nat.min x.length y.length)) ≠ 0
        then zstring.strcmpUnits (x.take (Nat.min x.length y.length))
          (y.take (Nat.min x.length y.length))
        else if x.length < y.length then -1
        else if y.length < x.length then 1 else 0) := by
  intro x
  induction x with
  | nil =>
    intro y
    cases y with
    | nil => rfl
    | cons b bs =>
      show specCompare [] (b :: bs) = _
      rw [show Nat.min (List.length ([] : List Nat)) (b :: bs).length = 0
        from rfl]
      simp only [List.take_zero]
      rw [show zstring.strcmpUnits [] [] = 0 from rfl]
      rw [if_neg (show ¬ ((0 : Int) ≠ 0) by simp),
        if_pos (show List.length ([] : List Nat) < (b :: bs).length by simp)]
      rfl
  | cons a as ih =>
    intro y
    cases y with
    | nil =>
      show specCompare (a :: as) [] = _
      rw [show Nat.min (a :: as).length (List.length ([] : List Nat)) = 0 by
        simp only [List.length_cons, List.length_nil, min_ite]
        split <;> omega]
      simp only [List.take_zero]
      rw [show zstring.strcmpUnits [] [] = 0 from rfl]
      rw [if_neg (show ¬ ((0 : Int) ≠ 0) by simp),
        if_neg (show ¬ ((a :: as).length < List.length ([] : List Nat)) by
          simp),
        if_pos (show List.length ([] : List Nat) < (a :: as).length by simp)]
      rfl
    | cons b bs =>
      have hmin : Nat.min (a :: as).length (b :: bs).length =
          Nat.min as.length bs.length + 1 := by
        simp only [List.length_cons, min_ite]
        split <;> split <;> omega
      rw [specCompare, hmin]
      simp only [List.take_succ_cons]
      rw [show zstring.strcmpUnits (a :: as.take (Nat.min as.length bs.length))
          (b :: bs.take (Nat.min as.length bs.length)) =
          (if a < b then -1 else if b < a then 1
            else zstring.strcmpUnits (as.take (Nat.min as.length bs.length))
              (bs.take (Nat.min as.length bs.length))) from rfl]
      by_cases hab : a < b
      · simp only [if_pos hab]
        rw [if_pos (show (-1 : Int) ≠ 0 by decide)]
      · simp only [if_neg hab]
        by_cases hba : b < a
        · simp only [if_pos hba]
          rw [if_pos (show (1 : Int) ≠ 0 by decide)]
        · simp only [if_neg hba]
          rw [ih bs]
          simp only [List.length_cons]
          by_cases hc : zstring.strcmpUnits
              (as.take (Nat.min as.length bs.length))
              (bs.take (Nat.min as.length bs.length)) ≠ 0
          · rw [if_pos hc, if_pos hc]
          · rw [if_neg hc, if_neg hc]
            by_cases h1 : as.length < bs.length
            · rw [if_pos h1,
                if_pos (show as.length + 1 < bs.length + 1 by omega)]
            · rw [if_neg h1,
                if_neg (show ¬ (as.length + 1 < bs.length + 1) by omega)]
              by_cases h2 : bs.length < as.length
              · rw [if_pos h2,
                  if_pos (show bs.length + 1 < as.length + 1 by omega)]
              · rw [if_neg h2,
                  if_neg (show ¬ (bs.length + 1 < as.length + 1) by omega)]

theorem readSeq_zero (f : Nat → Nat) (n : Nat) :
    readSeq f 0 n = (List.range n).map f := by
  unfold readSeq
  apply List.map_congr_left
  intro a _
  rw [Nat.zero_add]

theorem readSeq_zero_content (s : Fstr) (n : Nat) (h : n ≤ s.len) :
    readSeq s.buf 0 n = s.content.take n := by
  rw [readSeq_zero]
  show _ = ((List.range s.len).map s.buf).take n
  rw [← List.map_take, List.take_range]
  congr 1
  rw [min_eq_left h]

/-- C5 (amended): compare is exactly the lexicographic
overlap-then-length comparison of the two contents; operator== is
content-based in both implementations — zuu::string's operator== and
operator<=> derive from compare, and basic_fstring's same-capacity
operator== is the content-based template of fstring_core.hpp lines
541-546 — so all of these depend only on the significant units and
report equality precisely for equal contents, irrespective of buffer
units beyond length().  (The basic_fstring same-capacity ordering does
not share this property: it comes from the compiler-defaulted
operator<=>, see the counterexample theorem.) -/
theorem compare_and_equality_from_content (s t : Fstr) :
    zstring.compare s t = specCompare s.content t.content ∧
    (zstring.eq s t = true ↔ s.content = t.content) ∧
    (zstring.cmp s t = .eq ↔ s.content = t.content) ∧
    (basic_fstring.eq s t = true ↔ s.content = t.content) := by
  have hsl : s.content.length = s.len := by
    simp [Fstr.content]
  have htl : t.content.length = t.len := by
    simp [Fstr.content]
  have hmain : zstring.compare s t = specCompare s.content t.content := by
    unfold zstring.compare
    rw [readSeq_zero_content s (Nat.min s.len t.len) (Nat.min_le_left _ _),
      readSeq_zero_content t (Nat.min s.len t.len) (Nat.min_le_right _ _),
      strcmpUnits_spec s.content t.content, hsl, htl]
  have heq : zstring.eq s t = true ↔ s.content = t.content := by
    unfold zstring.eq
    rw [hmain]
    rw [show (specCompare s.content t.content == 0) = true ↔
        specCompare s.content t.content = 0 from beq_iff_eq]
    exact specCompare_eq_zero _ _
  have hbe : basic_fstring.eq s t = zstring.eq s t := by
    unfold basic_fstring.eq zstring.eq zstring.compare
    by_cases hc : zstring.strcmpUnits (readSeq s.buf 0 (Nat.min s.len t.len))
        (readSeq t.buf 0 (Nat.min s.len t.len)) ≠ 0
    · rw [if_pos hc, if_pos hc]
    · rw [if_neg hc, if_neg hc]
      by_cases h1 : s.len < t.len
      · rw [if_pos h1, show ((-1 : Int) == 0) = false from rfl,
          beq_eq_false_iff_ne.mpr (show s.len ≠ t.len by omega)]
      · rw [if_neg h1]
        by_cases h2 : t.len < s.len
        · rw [if_pos h2, show ((1 : Int) == 0) = false from rfl,
            beq_eq_false_iff_ne.mpr (show s.len ≠ t.len by omega)]
        · rw [if_neg h2, show ((0 : Int) == 0) = true from rfl,
            beq_iff_eq.mpr (show s.len = t.len by omega)]
  refine ⟨hmain, heq, ?_, ?_⟩
  · unfold zstring.cmp
    rw [hmain]
    constructor
    · intro h
      by_cases h1 : specCompare s.content t.content < 0
      · rw [if_pos h1] at h; exact absurd h (by decide)
      · rw [if_neg h1] at h
        by_cases h2 : 0 < specCompare s.content t.content
        · rw [if_pos h2] at h; exact absurd h (by decide)
        · rw [← specCompare_eq_zero]; omega
    · intro h
      rw [← specCompare_eq_zero] at h
      rw [if_neg (by omega), if_neg (by omega)]
  · rw [hbe]
    exact heq

/-- Witness for C5 at concrete inputs: prefixes compare below longer
strings, and two strings with different padding beyond their lengths but
equal content are equal through the zuu::string comparison chain and
through basic_fstring's content-based operator==. -/
theorem compare_and_equality_from_content_witness :
    zstring.compare (zstring.ofList 4 [97, 98])
      (zstring.ofList 9 [97, 98, 99]) = -1 ∧
    zstring.eq (basic_fstring.erase (basic_fstring.ofList 3 [97, 98, 99]) 1 2)
      (zstring.ofList 3 [97]) = true ∧
    basic_fstring.eq
      (basic_fstring.erase (basic_fstring.ofList 3 [97, 98, 99]) 1 2)
      (basic_fstring.ofList 3 [97]) = true := by
  refine ⟨?_, ?_, ?_⟩
  · rw [(compare_and_equality_from_content (zstring.ofList 4 [97, 98])
      (zstring.ofList 9 [97, 98, 99])).1]
    decide
  · rw [(compare_and_equality_from_content
      (basic_fstring.erase (basic_fstring.ofList 3 [97, 98, 99]) 1 2)
      (zstring.ofList 3 [97])).2.1]
    decide
  · rw [(compare_and_equality_from_content
      (basic_fstring.erase (basic_fstring.ofList 3 [97, 98, 99]) 1 2)
      (basic_fstring.ofList 3 [97])).2.2.2]
    decide

/-- C5 counterexample: the claim fails on the code as stated for
basic_fstring.  erase(1, 2) on abc leaves the unit c in the buffer
beyond the terminator, so this string and the freshly constructed a have
equal content, equal length and equal capacity, and the real
same-capacity operator== (the content-based template of fstring_core.hpp
lines 541-546) duly returns true — but the same-capacity ordering comes
from the compiler-defaulted operator<=> (line 539), member-wise over the
whole data_ array and then length_, which sees the differing padding
unit and does not report equality as the claim requires. -/
theorem defaulted_ordering_sees_padding :
    (basic_fstring.erase (basic_fstring.ofList 3 [97, 98, 99]) 1 2).content =
      (basic_fstring.ofList 3 [97]).content ∧
    (basic_fstring.erase (basic_fstring.ofList 3 [97, 98, 99]) 1 2).len =
      (basic_fstring.ofList 3 [97]).len ∧
    (basic_fstring.erase (basic_fstring.ofList 3 [97, 98, 99]) 1 2).cap =
      (basic_fstring.ofList 3 [97]).cap ∧
    basic_fstring.eq
      (basic_fstring.erase (basic_fstring.ofList 3 [97, 98, 99]) 1 2)
      (basic_fstring.ofList 3 [97]) = true ∧
    basic_fstring.cmp_default
      (basic_fstring.erase (basic_fstring.ofList 3 [97, 98, 99]) 1 2)
      (basic_fstring.ofList 3 [97]) ≠ .eq := by
  refine ⟨by decide, by decide, rfl, by decide, by decide⟩

-- ==================== C8: find with an empty needle ====================

theorem find_str_nil (hay : List Nat) (n : Nat) :
    basic_fstring.find_str hay n [] 0 = some 0 := by
  unfold basic_fstring.find_str
  rw [show n + 1 - 0 = n + 1 from rfl, List.range_succ_eq_map]
  rw [List.find?_cons_of_pos]
  simp

/-- C8 (amended): with an empty needle, zuu::string find returns from
exactly when from <= length() and npos otherwise, as the claim states;
basic_fstring find instead returns npos for every needle whenever
from >= length() — in particular for the empty needle at from =
length(), and on an empty string — and returns from for an empty needle
only when from < length(). -/
theorem find_empty_needle (s : Fstr) (needle : List Nat) (pos : Nat) :
    (zstring.find s [] pos = if pos ≤ s.len then pos else npos) ∧
    (s.len ≤ pos → basic_fstring.find s needle pos = npos) ∧
    (pos < s.len → basic_fstring.find s [] pos = pos) := by
  refine ⟨rfl, ?_, ?_⟩
  · intro h
    unfold basic_fstring.find
    rw [if_pos h]
  · intro h
    unfold basic_fstring.find
    rw [if_neg (by omega)]
    show (match basic_fstring.find_str (readSeq s.buf pos (s.len - pos))
        (s.len - pos) [] (cstrlen []) with
      | some o => pos + o
      | none => npos) = pos
    rw [show cstrlen [] = 0 from rfl, find_str_nil]
    rfl

/-- Witness for C8-amended at concrete inputs: on the length-2 string hi,
an empty needle at position 1 is found at 1 by both variants, and a
non-empty needle from position 2 = length() fails in basic_fstring. -/
theorem find_empty_needle_witness :
    zstring.find (zstring.ofList 20 [104, 105]) [] 1 = 1 ∧
    basic_fstring.find (basic_fstring.ofList 20 [104, 105]) [] 1 = 1 ∧
    basic_fstring.find (basic_fstring.ofList 20 [104, 105]) [108] 2 = npos := by
  have h1 := (find_empty_needle (zstring.ofList 20 [104, 105]) [] 1).1
  have h2 := (find_empty_needle (basic_fstring.ofList 20 [104, 105]) [] 1).2.2
    (by decide)
  have h3 := (find_empty_needle (basic_fstring.ofList 20 [104, 105]) [108]
    2).2.1 (by decide)
  refine ⟨?_, h2, h3⟩
  rw [h1]
  decide

/-- C8 counterexample: the claim states that find with an empty needle
returns from whenever from <= length().  On an empty basic_fstring with
from = 0 (0 <= length() = 0) the code returns npos, not 0: the guard
pos >= length_ at fstring_core.hpp line 573 fires before the needle is
examined. -/
theorem find_empty_needle_counterexample :
    basic_fstring.find (Fstr.mk0 5) [] 0 = npos ∧ npos ≠ 0 := by
  exact ⟨rfl, by decide⟩

-- ================= wrap-around arithmetic lemmas =================

namespace conversions

theorem wrapS_emod (w : Nat) (z : Int) :
    wrapS w z % 2 ^ w = z % 2 ^ w := by
  unfold wrapS
  rw [Int.sub_emod, Int.emod_emod_of_dvd _ dvd_rfl, ← Int.sub_emod,
    Int.add_sub_cancel]

theorem wrapS_congr (w : Nat) (x y : Int) (h : x % 2 ^ w = y % 2 ^ w) :
    wrapS w x = wrapS w y := by
  unfold wrapS
  have : (x + 2 ^ (w - 1)) % 2 ^ w = (y + 2 ^ (w - 1)) % 2 ^ w :=
    Int.ModEq.add_right _ h
  rw [this]

theorem wrapInt_emod (sg : Bool) (w : Nat) (z : Int) :
    wrapInt sg w z % 2 ^ w = z % 2 ^ w := by
  unfold wrapInt
  cases sg with
  | false => simp [Int.emod_emod_of_dvd _ dvd_rfl]
  | true => simp [wrapS_emod]

theorem wrapInt_congr (sg : Bool) (w : Nat) (x y : Int)
    (h : x % 2 ^ w = y % 2 ^ w) : wrapInt sg w x = wrapInt sg w y := by
  unfold wrapInt
  cases sg with
  | false => simp [h]
  | true => simp [wrapS_congr w x y h]

theorem wrapS_fix (w : Nat) (z : Int) (hw : 1 ≤ w)
    (hlo : -(2 ^ (w - 1)) ≤ z) (hhi : z < 2 ^ (w - 1)) : wrapS w z = z := by
  unfold wrapS
  have hm : (2 : Int) ^ w = 2 ^ (w - 1) * 2 := by
    rw [← pow_succ]
    congr 1
    omega
  have hp : (0 : Int) < 2 ^ (w - 1) := by positivity
  rw [Int.emod_eq_of_lt (by omega) (by rw [hm]; omega)]
  omega

theorem wrapS_zero (w : Nat) (hw : 1 ≤ w) : wrapS w 0 = 0 := by
  have hp : (0 : Int) < 2 ^ (w - 1) := by positivity
  exact wrapS_fix w 0 hw (by omega) hp

theorem wrapInt_zero (sg : Bool) (w : Nat) (hw : 1 ≤ w) :
    wrapInt sg w 0 = 0 := by
  unfold wrapInt
  cases sg with
  | false => simp
  | true => simp [wrapS_zero w hw]

theorem wrapInt_mul_add (sg : Bool) (w : Nat) (a b d : Int) :
    wrapInt sg w (wrapInt sg w a * b + d) = wrapInt sg w (a * b + d) := by
  apply wrapInt_congr
  exact Int.ModEq.add_right d (Int.ModEq.mul_right b (wrapInt_emod sg w a))

-- ===================== digit lemmas =====================

theorem decode_digitChar (d : Nat) (hd : d < 36) :
    decodeDigit (digitChar d) = d := by
  unfold decodeDigit digitChar
  by_cases h : d < 10
  · rw [if_pos h, if_pos (by omega)]
    omega
  · rw [if_neg h, if_neg (by omega), if_pos (by omega)]
    omega

theorem digitChar_ge (d : Nat) : 48 ≤ digitChar d := by
  unfold digitChar
  split <;> omega

theorem digitsLE_all_lt (b : Nat) (hb : 2 ≤ b) :
    ∀ n, ∀ d ∈ digitsLE b n, d < b := by
  intro n
  induction n using Nat.strong_induction_on with
  | _ n ih =>
    cases n with
    | zero =>
      intro d hd
      rw [digitsLE] at hd
      exact absurd hd (List.not_mem_nil d)
    | succ m =>
      intro d hd
      rw [digitsLE, dif_pos hb] at hd
      rcases List.mem_cons.mp hd with h | h
      · rw [h]
        exact Nat.mod_lt _ (by omega)
      · exact ih ((m + 1) / b) (Nat.div_lt_self (Nat.succ_pos m) hb) d h

theorem digitsLE_length_le (b : Nat) (hb : 2 ≤ b) :
    ∀ k n, n < b ^ k → (digitsLE b n).length ≤ k := by
  intro k
  induction k with
  | zero =>
    intro n hn
    have : n = 0 := by simpa using hn
    rw [this, digitsLE]
    simp
  | succ k ih =>
    intro n hn
    cases n with
    | zero => rw [digitsLE]; simp
    | succ m =>
      rw [digitsLE, dif_pos hb]
      simp only [List.length_cons]
      have hdiv : (m + 1) / b < b ^ k := by
        rw [Nat.div_lt_iff_lt_mul (by omega)]
        calc m + 1 < b ^ (k + 1) := hn
          _ = b ^ k * b := by rw [pow_succ]
      exact Nat.succ_le_succ (ih _ hdiv)

theorem digitsLE_ne_nil (b n : Nat) (hb : 2 ≤ b) (hn : n ≠ 0) :
    digitsLE b n ≠ [] := by
  cases n with
  | zero => exact absurd rfl hn
  | succ m =>
    rw [digitsLE, dif_pos hb]
    exact List.cons_ne_nil _ _

theorem valBE_digitsLE (b : Nat) (hb : 2 ≤ b) :
    ∀ n : Nat, valBE (b : Int) ((digitsLE b n).reverse) = n := by
  intro n
  induction n using Nat.strong_induction_on with
  | _ n ih =>
    cases n with
    | zero => rw [digitsLE]; rfl
    | succ m =>
      rw [digitsLE, dif_pos hb]
      unfold valBE
      rw [List.reverse_cons, List.foldl_append]
      have hrec := ih ((m + 1) / b) (Nat.div_lt_self (Nat.succ_pos m) hb)
      unfold valBE at hrec
      rw [hrec]
      show ((((m + 1) / b : Nat) : Int)) * (b : Int) + (((m + 1) % b : Nat) : Int) =
        ((m + 1 : Nat) : Int)
      have hnat : ((m + 1) / b) * b + (m + 1) % b = m + 1 := by
        rw [Nat.mul_comm]
        exact Nat.div_add_mod (m + 1) b
      exact_mod_cast hnat

-- =================== parseDigits over digit characters ===================

theorem parseDigits_map (sg : Bool) (w : Nat) (base : Int)
    (hb36 : base ≤ 36) :
    ∀ (ds : List Nat) (a : Int), (∀ d ∈ ds, (d : Int) < base) →
      parseDigits sg w base (ds.map digitChar) (wrapInt sg w a) =
        wrapInt sg w
          (ds.foldl (fun (acc : Int) (d : Nat) => acc * base + (d : Int)) a) := by
  intro ds
  induction ds with
  | nil => intro a _; rfl
  | cons d ds ih =>
    intro a hall
    have hd : (d : Int) < base := hall d (List.mem_cons_self d ds)
    have hd36 : d < 36 := by
      have : (d : Int) < 36 := lt_of_lt_of_le hd hb36
      exact_mod_cast this
    have hdec := decode_digitChar d hd36
    simp only [List.map_cons]
    rw [parseDigits, hdec]
    rw [if_neg (by push_neg; exact ⟨by positivity, hd⟩)]
    rw [wrapInt_mul_add]
    rw [ih (a * base + d) (fun x hx => hall x (List.mem_cons_of_mem d hx))]
    rfl

end conversions

-- ================ content of character-by-character appends ================

theorem append_ch_spec (s : Fstr) (c : Nat) (hlt : s.len < s.cap) :
    (basic_fstring.append_ch s c).content = s.content ++ [c] ∧
    (basic_fstring.append_ch s c).len = s.len + 1 ∧
    (basic_fstring.append_ch s c).cap = s.cap := by
  unfold basic_fstring.append_ch
  rw [if_neg (by omega)]
  exact ⟨content_after_write s [c], rfl, rfl⟩

theorem foldl_append_ch (l : List Nat) : ∀ s : Fstr,
    s.len + l.length ≤ s.cap →
    ((l.foldl basic_fstring.append_ch s).content = s.content ++ l ∧
      (l.foldl basic_fstring.append_ch s).len = s.len + l.length ∧
      (l.foldl basic_fstring.append_ch s).cap = s.cap) := by
  induction l with
  | nil =>
    intro s _
    exact ⟨by simp, by simp, rfl⟩
  | cons c l ih =>
    intro s h
    simp only [List.length_cons] at h
    have hlt : s.len < s.cap := by omega
    have hc := append_ch_spec s c hlt
    simp only [List.foldl_cons]
    have hrec := ih (basic_fstring.append_ch s c)
      (by rw [hc.2.1, hc.2.2]; omega)
    refine ⟨?_, ?_, ?_⟩
    · rw [hrec.1, hc.1]
      simp
    · rw [hrec.2.1, hc.2.1]
      simp only [List.length_cons]
      omega
    · rw [hrec.2.2, hc.2.2]

/-- A string whose content is a cons has that unit at data_[0], is
non-empty, and dropping one unit of the content drops the head. -/
theorem content_head (s : Fstr) (c : Nat) (rest : List Nat)
    (h : s.content = c :: rest) :
    s.buf 0 = c ∧ s.len ≠ 0 ∧ s.content.drop 1 = rest := by
  have hlen : s.len = rest.length + 1 := by
    have h1 : s.content.length = rest.length + 1 := by rw [h]; simp
    simpa [Fstr.content] using h1
  refine ⟨?_, by omega, by rw [h]; rfl⟩
  have h2 : s.content.head? = some c := by rw [h]; rfl
  unfold Fstr.content at h2
  rw [show s.len = (s.len - 1) + 1 by omega, List.range_succ_eq_map,
    List.map_cons, List.head?_cons] at h2
  injection h2

-- =================== parse_int on digit-character content ===================

namespace conversions

/-- parse_int on a string whose content is a list of digit characters all
below the base: the digit loop never breaks, and the result is the
big-endian digit value in the wrap-around arithmetic of the target
type. -/
theorem parse_int_digits (w : Nat) (sg : Bool) (base : Int) (hw : 1 ≤ w)
    (hb36 : base ≤ 36) (s : Fstr) (ds : List Nat) (hne : ds ≠ [])
    (hall : ∀ d ∈ ds, (d : Int) < base)
    (hc : s.content = ds.map digitChar) :
    parse_int w sg s base = wrapInt sg w (valBE base ds) := by
  obtain ⟨d0, ds', rfl⟩ : ∃ d0 ds', ds = d0 :: ds' := by
    cases ds with
    | nil => exact absurd rfl hne
    | cons d0 ds' => exact ⟨d0, ds', rfl⟩
  rw [List.map_cons] at hc
  have hh := content_head s (digitChar d0) (ds'.map digitChar) hc
  have h48 := digitChar_ge d0
  unfold parse_int
  rw [if_neg hh.2.1, if_neg (by rintro ⟨_, hb⟩; omega),
    if_neg (by rintro ⟨_, hb⟩; omega), hc, ← List.map_cons]
  have hstep := parseDigits_map sg w base hb36 (d0 :: ds') 0 hall
  rw [wrapInt_zero sg w hw] at hstep
  exact hstep

/-- parse_int on a string whose content is a minus sign followed by digit
characters below the base (signed type): the negated accumulated value,
in wrap-around arithmetic. -/
theorem parse_int_digits_neg (w : Nat) (base : Int) (hw : 1 ≤ w)
    (hb36 : base ≤ 36) (s : Fstr) (ds : List Nat)
    (hall : ∀ d ∈ ds, (d : Int) < base)
    (hc : s.content = 45 :: ds.map digitChar) :
    parse_int w true s base = wrapS w (-(valBE base ds)) := by
  have hh := content_head s 45 (ds.map digitChar) hc
  unfold parse_int
  rw [if_neg hh.2.1, if_pos ⟨rfl, hh.1⟩, hh.2.2]
  have hstep := parseDigits_map true w base hb36 ds 0 hall
  rw [wrapInt_zero true w hw] at hstep
  rw [hstep]
  show wrapS w (-(wrapS w (valBE base ds))) = wrapS w (-(valBE base ds))
  apply wrapS_congr
  have h1 := wrapS_emod w (valBE base ds)
  calc -(wrapS w (valBE base ds)) % 2 ^ w
      = -(valBE base ds) % 2 ^ w := Int.ModEq.neg h1
    _ = -(valBE base ds) % 2 ^ w := rfl

theorem cast_pow_two (w : Nat) : ((2 ^ w : Nat) : Int) = 2 ^ w := by
  push_cast
  rfl

/-- Content of the digit-emission loop of to_fstring starting from a fresh
buffer: exactly the big-endian digit characters. -/
theorem digits_fold_content (w b uv : Nat) (hb : 2 ≤ b) (huv : uv < 2 ^ w) :
    (((digitsLE b uv).reverse.map digitChar).foldl basic_fstring.append_ch
        (Fstr.mk0 (w + 2))).content = (digitsLE b uv).reverse.map digitChar := by
  have hlen : (digitsLE b uv).length ≤ w := by
    apply digitsLE_length_le b hb w uv
    calc uv < 2 ^ w := huv
      _ ≤ b ^ w := Nat.pow_le_pow_left hb w
  have hfit : (Fstr.mk0 (w + 2)).len +
      ((digitsLE b uv).reverse.map digitChar).length ≤ (Fstr.mk0 (w + 2)).cap := by
    simp only [Fstr.mk0, List.length_map, List.length_reverse]
    omega
  have h := foldl_append_ch ((digitsLE b uv).reverse.map digitChar) _ hfit
  rw [h.1]
  rfl

/-- Content of the digit-emission loop of to_fstring after the minus sign
was appended: the sign followed by the big-endian digit characters. -/
theorem digits_fold_content_neg (w b uv : Nat) (hb : 2 ≤ b)
    (huv : uv < 2 ^ w) :
    (((digitsLE b uv).reverse.map digitChar).foldl basic_fstring.append_ch
        (basic_fstring.append_ch (Fstr.mk0 (w + 2)) 45)).content =
      45 :: (digitsLE b uv).reverse.map digitChar := by
  have hlen : (digitsLE b uv).length ≤ w := by
    apply digitsLE_length_le b hb w uv
    calc uv < 2 ^ w := huv
      _ ≤ b ^ w := Nat.pow_le_pow_left hb w
  have hstart := append_ch_spec (Fstr.mk0 (w + 2)) 45 (by simp [Fstr.mk0])
  have hfit : (basic_fstring.append_ch (Fstr.mk0 (w + 2)) 45).len +
      ((digitsLE b uv).reverse.map digitChar).length ≤
      (basic_fstring.append_ch (Fstr.mk0 (w + 2)) 45).cap := by
    rw [hstart.2.1, hstart.2.2]
    simp only [Fstr.mk0, List.length_map, List.length_reverse]
    omega
  have h := foldl_append_ch ((digitsLE b uv).reverse.map digitChar) _ hfit
  rw [h.1, hstart.1]
  rfl

-- ======================= C7: numeric round-trip =======================

/-- C7: for every width w >= 1, every base in [2, 36] and every value in
the representable range of the integer type, parsing the text produced
by the base conversion returns the original value — for the signed type
(range [-2^(w-1), 2^(w-1))) and for the unsigned type (range
[0, 2^w)). -/
theorem parse_int_to_fstring_roundtrip (w : Nat) (base x : Int) (hw : 1 ≤ w)
    (hb2 : 2 ≤ base) (hb36 : base ≤ 36) :
    (-(2 ^ (w - 1)) ≤ x → x < 2 ^ (w - 1) →
      conversions.parse_int w true
        (conversions.to_fstring w true x base) base = x) ∧
    (0 ≤ x → x < 2 ^ w →
      conversions.parse_int w false
        (conversions.to_fstring w false x base) base = x) := by
  have hnotbad : ¬ (base < 2 ∨ 36 < base) := by omega
  have hbn : 2 ≤ base.toNat := by omega
  have hbcast : ((base.toNat : Nat) : Int) = base := Int.toNat_of_nonneg (by omega)
  have hm : (2 : Int) ^ w = 2 ^ (w - 1) * 2 := by
    rw [← pow_succ]
    congr 1
    omega
  have hhpos : (0 : Int) < 2 ^ (w - 1) := by positivity
  have hcp := conversions.cast_pow_two w
  -- parse of the "0" output
  have hzero : ∀ sg : Bool, conversions.parse_int w sg
      (basic_fstring.append_ch (Fstr.mk0 (w + 2)) 48) base = 0 := by
    intro sg
    have hc : (basic_fstring.append_ch (Fstr.mk0 (w + 2)) 48).content =
        [0].map conversions.digitChar := by
      have h := append_ch_spec (Fstr.mk0 (w + 2)) 48 (by simp [Fstr.mk0])
      rw [h.1]
      rfl
    rw [conversions.parse_int_digits w sg base hw hb36 _ [0]
      (List.cons_ne_nil 0 []) (by intro d hd; simp at hd; omega) hc]
    have : conversions.valBE base [0] = 0 := by
      unfold conversions.valBE
      simp
    rw [this, conversions.wrapInt_zero sg w hw]
  constructor
  · -- signed round trip
    intro hlo hhi
    by_cases hx0 : x = 0
    · subst hx0
      unfold conversions.to_fstring
      rw [if_neg hnotbad, if_pos rfl]
      exact hzero true
    · by_cases hxn : x < 0
      · -- negative value: sign and magnitude digits
        have hux : -x % 2 ^ w = -x := by
          apply Int.emod_eq_of_lt (by omega)
          omega
        have huvc : ((-x % (2 ^ w : Int)).toNat : Int) = -x := by
          rw [hux]
          exact Int.toNat_of_nonneg (by omega)
        have huvlt : (-x % (2 ^ w : Int)).toNat < 2 ^ w := by
          have : ((-x % (2 ^ w : Int)).toNat : Int) < ((2 ^ w : Nat) : Int) := by
            rw [huvc, hcp]
            omega
          exact_mod_cast this
        have huv0 : (-x % (2 ^ w : Int)).toNat ≠ 0 := by
          intro h
          rw [h] at huvc
          simp at huvc
          omega
        unfold conversions.to_fstring
        rw [if_neg hnotbad, if_neg hx0, if_pos ⟨rfl, hxn⟩]
        set ds := (conversions.digitsLE base.toNat
          ((-x % (2 ^ w : Int)).toNat)).reverse with hds
        have hall : ∀ d ∈ ds, (d : Int) < base := by
          intro d hd
          rw [hds, List.mem_reverse] at hd
          have := conversions.digitsLE_all_lt base.toNat hbn _ d hd
          omega
        have hc := conversions.digits_fold_content_neg w base.toNat
          ((-x % (2 ^ w : Int)).toNat) hbn huvlt
        rw [conversions.parse_int_digits_neg w base hw hb36 _ ds hall hc]
        have hval : conversions.valBE base ds = -x := by
          rw [hds]
          have hv := conversions.valBE_digitsLE base.toNat hbn
            ((-x % (2 ^ w : Int)).toNat)
          rw [hbcast] at hv
          rw [hv, huvc]
        rw [hval, neg_neg]
        exact conversions.wrapS_fix w x hw hlo hhi
      · -- positive value
        have hxpos : 0 < x := by omega
        have hux : x % 2 ^ w = x := by
          apply Int.emod_eq_of_lt (by omega)
          omega
        have huvc : ((x % (2 ^ w : Int)).toNat : Int) = x := by
          rw [hux]
          exact Int.toNat_of_nonneg (by omega)
        have huvlt : (x % (2 ^ w : Int)).toNat < 2 ^ w := by
          have : ((x % (2 ^ w : Int)).toNat : Int) < ((2 ^ w : Nat) : Int) := by
            rw [huvc, hcp]
            omega
          exact_mod_cast this
        have huv0 : (x % (2 ^ w : Int)).toNat ≠ 0 := by
          intro h
          rw [h] at huvc
          simp at huvc
          omega
        unfold conversions.to_fstring
        rw [if_neg hnotbad, if_neg hx0, if_neg (by rintro ⟨_, h⟩; omega)]
        set ds := (conversions.digitsLE base.toNat
          ((x % (2 ^ w : Int)).toNat)).reverse with hds
        have hall : ∀ d ∈ ds, (d : Int) < base := by
          intro d hd
          rw [hds, List.mem_reverse] at hd
          have := conversions.digitsLE_all_lt base.toNat hbn _ d hd
          omega
        have hne : ds ≠ [] := by
          rw [hds]
          intro h
          exact conversions.digitsLE_ne_nil base.toNat _ hbn huv0
            (List.reverse_eq_nil_iff.mp h)
        have hc := conversions.digits_fold_content w base.toNat
          ((x % (2 ^ w : Int)).toNat) hbn huvlt
        rw [conversions.parse_int_digits w true base hw hb36 _ ds hne hall hc]
        have hval : conversions.valBE base ds = x := by
          rw [hds]
          have hv := conversions.valBE_digitsLE base.toNat hbn
            ((x % (2 ^ w : Int)).toNat)
          rw [hbcast] at hv
          rw [hv, huvc]
        rw [hval]
        show conversions.wrapS w x = x
        exact conversions.wrapS_fix w x hw hlo hhi
  · -- unsigned round trip
    intro hlo hhi
    by_cases hx0 : x = 0
    · subst hx0
      unfold conversions.to_fstring
      rw [if_neg hnotbad, if_pos rfl]
      exact hzero false
    · have hux : x % 2 ^ w = x := Int.emod_eq_of_lt (by omega) hhi
      have huvc : ((x % (2 ^ w : Int)).toNat : Int) = x := by
        rw [hux]
        exact Int.toNat_of_nonneg (by omega)
      have huvlt : (x % (2 ^ w : Int)).toNat < 2 ^ w := by
        have : ((x % (2 ^ w : Int)).toNat : Int) < ((2 ^ w : Nat) : Int) := by
          rw [huvc, hcp]
          omega
        exact_mod_cast this
      have huv0 : (x % (2 ^ w : Int)).toNat ≠ 0 := by
        intro h
        rw [h] at huvc
        simp at huvc
        omega
      unfold conversions.to_fstring
      rw [if_neg hnotbad, if_neg hx0,
        if_neg (by rintro ⟨h, _⟩; exact absurd h (by decide))]
      set ds := (conversions.digitsLE base.toNat
        ((x % (2 ^ w : Int)).toNat)).reverse with hds
      have hall : ∀ d ∈ ds, (d : Int) < base := by
        intro d hd
        rw [hds, List.mem_reverse] at hd
        have := conversions.digitsLE_all_lt base.toNat hbn _ d hd
        omega
      have hne : ds ≠ [] := by
        rw [hds]
        intro h
        exact conversions.digitsLE_ne_nil base.toNat _ hbn huv0
          (List.reverse_eq_nil_iff.mp h)
      have hc := conversions.digits_fold_content w base.toNat
        ((x % (2 ^ w : Int)).toNat) hbn huvlt
      rw [conversions.parse_int_digits w false base hw hb36 _ ds hne hall hc]
      have hval : conversions.valBE base ds = x := by
        rw [hds]
        have hv := conversions.valBE_digitsLE base.toNat hbn
          ((x % (2 ^ w : Int)).toNat)
        rw [hbcast] at hv
        rw [hv, huvc]
      rw [hval]
      show x % 2 ^ w = x
      exact hux

end conversions

/-- Witness for C7 at a concrete input: the most negative 8-bit value
round-trips through base 16 (to_fstring emits -80, parse_int returns
-128). -/
theorem parse_int_to_fstring_roundtrip_witness :
    conversions.parse_int 8 true (conversions.to_fstring 8 true (-128) 16)
      16 = -128 := by
  exact (conversions.parse_int_to_fstring_roundtrip 8 16 (-128) (by decide)
    (by decide) (by decide)).1 (by decide) (by decide)

-- ================= C10: wrap-around accumulation in parse_int =================

/-- C10: parse_int performs no overflow detection.  For every digit
string (every unit a digit character whose value is below the base), the
returned value is the big-endian accumulated value reduced by
two's-complement wrap-around at the width of the target type — not an
error, not zero and not a clamped value.  Concretely, 200 parsed as a
signed 8-bit value yields -56. -/
theorem parse_int_no_overflow_check (w : Nat) (base : Int) (s : Fstr)
    (ds : List Nat) (hw : 1 ≤ w) (hb36 : base ≤ 36) (hne : ds ≠ [])
    (hall : ∀ d ∈ ds, (d : Int) < base)
    (hc : s.content = ds.map conversions.digitChar) :
    conversions.parse_int w true s base =
      conversions.wrapS w (conversions.valBE base ds) := by
  exact conversions.parse_int_digits w true base hw hb36 s ds hne hall hc

/-- Witness for C10 at a concrete input: the digit string 200 exceeds the
signed 8-bit range; parse_int returns the wrapped value -56 (not an
error, not 0, not the saturated 127). -/
theorem parse_int_no_overflow_check_witness :
    conversions.parse_int 8 true (basic_fstring.ofList 8 [50, 48, 48]) 10 =
      -56 ∧ (-56 : Int) ≠ 0 ∧ (-56 : Int) ≠ 127 := by
  have h := parse_int_no_overflow_check 8 10
    (basic_fstring.ofList 8 [50, 48, 48]) [2, 0, 0] (by decide) (by decide)
    (by decide) (by decide) (by decide)
  refine ⟨?_, by decide, by decide⟩
  rw [h]
  decide

-- =================== C9: soft-zero policy of parse_int ===================

/-- C9 (the parse_int half): parse_int never signals an error (it is a
total function), and malformed input parses to zero: an empty string, a
string whose first unit after the optionally consumed sign is not a
valid digit for the base, and a sign-only or sign-then-invalid-unit
string all return 0.  (parse_float is not modelled: its arithmetic is
IEEE floating point, and on exponent-only input such as e309 the C++
computes 0.0 * pow(10, 309) = 0 * infinity = NaN, which is the code_bug
recorded for this claim.) -/
theorem parse_int_soft_zero (w : Nat) (sg : Bool) (s : Fstr) (base : Int)
    (hw : 1 ≤ w) :
    (s.len = 0 → conversions.parse_int w sg s base = 0) ∧
    (∀ c rest, s.content = c :: rest →
      ¬ (sg = true ∧ (c = 45 ∨ c = 43)) →
      (conversions.decodeDigit c < 0 ∨ base ≤ conversions.decodeDigit c) →
      conversions.parse_int w sg s base = 0) ∧
    (∀ c rest, s.content = c :: rest → sg = true → (c = 45 ∨ c = 43) →
      (rest = [] ∨ ∃ c2 rest2, rest = c2 :: rest2 ∧
        (conversions.decodeDigit c2 < 0 ∨
          base ≤ conversions.decodeDigit c2)) →
      conversions.parse_int w sg s base = 0) := by
  refine ⟨?_, ?_, ?_⟩
  · intro h
    unfold conversions.parse_int
    rw [if_pos h]
  · intro c rest hcon hns hinv
    have hh := content_head s c rest hcon
    unfold conversions.parse_int
    rw [if_neg hh.2.1,
      if_neg (by rintro ⟨hsg, h45⟩; exact hns ⟨hsg, Or.inl (by
        rw [hh.1] at h45; exact h45)⟩),
      if_neg (by rintro ⟨hsg, h43⟩; exact hns ⟨hsg, Or.inr (by
        rw [hh.1] at h43; exact h43)⟩),
      hcon, conversions.parseDigits, if_pos hinv]
  · intro c rest hcon hsg hc45 hrest
    have hh := content_head s c rest hcon
    have hdrop : s.content.drop 1 = rest := hh.2.2
    have hzero : conversions.parseDigits sg w base rest 0 = 0 := by
      rcases hrest with h | ⟨c2, rest2, hr, hi⟩
      · rw [h]
        rfl
      · rw [hr, conversions.parseDigits, if_pos hi]
    rcases hc45 with h45 | h43
    · unfold conversions.parse_int
      rw [if_neg hh.2.1, if_pos ⟨hsg, by rw [hh.1, h45]⟩, hdrop, hzero]
      rw [neg_zero]
      exact conversions.wrapInt_zero sg w hw
    · by_cases hb45 : s.buf 0 = 45
      · unfold conversions.parse_int
        rw [if_neg hh.2.1, if_pos ⟨hsg, hb45⟩, hdrop, hzero]
        rw [neg_zero]
        exact conversions.wrapInt_zero sg w hw
      · unfold conversions.parse_int
        rw [if_neg hh.2.1, if_neg (by rintro ⟨_, h⟩; exact hb45 h),
          if_pos ⟨hsg, by rw [hh.1, h43]⟩, hdrop, hzero]

/-- Witness for C9 at a concrete input: the non-numeric string xyz parses
to 0 as a signed 32-bit value in base 10. -/
theorem parse_int_soft_zero_witness :
    conversions.parse_int 32 true (basic_fstring.ofList 8 [120, 121, 122])
      10 = 0 := by
  exact (parse_int_soft_zero 32 true (basic_fstring.ofList 8 [120, 121, 122])
    10 (by decide)).2.1 120 [121, 122] (by decide) (by decide) (by decide)

-- ======================== C6: split policy ========================

theorem content_nil_iff (s : Fstr) : s.content = [] ↔ s.len = 0 := by
  constructor
  · intro h
    have := congrArg List.length h
    simpa [Fstr.content] using this
  · intro h
    unfold Fstr.content
    rw [h]
    rfl

theorem clear_content (s : Fstr) : (basic_fstring.clear s).content = [] := rfl

theorem clear_wf (s : Fstr) : (basic_fstring.clear s).Wf := by
  refine ⟨Nat.zero_le _, ?_⟩
  show upd s.buf 0 0 0 = 0
  rw [upd_apply, if_pos rfl]

theorem append_ch_wf (s : Fstr) (c : Nat) (hlt : s.len < s.cap) :
    (basic_fstring.append_ch s c).Wf := by
  unfold basic_fstring.append_ch
  rw [if_neg (by omega)]
  refine ⟨?_, ?_⟩
  · show s.len + 1 ≤ s.cap
    omega
  · show upd (upd s.buf s.len c) (s.len + 1) 0 (s.len + 1) = 0
    rw [upd_apply, if_pos rfl]

namespace algorithms

theorem chunks_ne_nil (d : Nat) : ∀ l, chunks d l ≠ [] := by
  intro l
  cases l with
  | nil => exact List.cons_ne_nil _ _
  | cons c cs =>
    rw [chunks]
    by_cases h : c = d
    · rw [if_pos h]
      exact List.cons_ne_nil _ _
    · rw [if_neg h]
      cases hx : chunks d cs with
      | nil => exact List.cons_ne_nil _ _
      | cons h0 t0 => exact List.cons_ne_nil _ _

/-- Prepend units to the first chunk of a chunk list. -/
def consHead (p : List Nat) : List (List Nat) → List (List Nat)
  | [] => [p]
  | h :: t => (p ++ h) :: t

theorem chunks_cons_delim (d : Nat) (cs : List Nat) :
    chunks d (d :: cs) = [] :: chunks d cs := by
  rw [chunks, if_pos rfl]

theorem chunks_append (d : Nat) (p : List Nat) (hp : d ∉ p) :
    ∀ cs, chunks d (p ++ cs) = consHead p (chunks d cs) := by
  induction p with
  | nil =>
    intro cs
    simp only [List.nil_append]
    cases hx : chunks d cs with
    | nil => exact absurd hx (chunks_ne_nil d cs)
    | cons h0 t0 => rfl
  | cons c p ih =>
    intro cs
    have hc : ¬ (c = d) := by
      intro h
      exact hp (h ▸ List.mem_cons_self c p)
    have hp2 : d ∉ p := fun h => hp (List.mem_cons_of_mem c h)
    show chunks d (c :: (p ++ cs)) = _
    rw [chunks, if_neg hc, ih hp2 cs]
    cases hx : chunks d cs with
    | nil => exact absurd hx (chunks_ne_nil d cs)
    | cons h0 t0 => rfl

theorem chunks_no_delim (d : Nat) (p : List Nat) (hp : d ∉ p) :
    chunks d p = [p] := by
  have h := chunks_append d p hp []
  rw [List.append_nil] at h
  rw [h]
  show (p ++ []) :: [] = [p]
  rw [List.append_nil]

theorem splitLoop_spec (d M : Nat) :
    ∀ (cs : List Nat) (parts : List Fstr) (cur : Fstr),
      cur.len + cs.length ≤ cur.cap → d ∉ cur.content →
      parts.length ≤ M →
      (splitFinish M (splitLoop d M cs parts cur)).map Fstr.content =
        parts.map Fstr.content ++
          ((chunks d (cur.content ++ cs)).filter
            (fun l => !l.isEmpty)).take (M - parts.length) := by
  intro cs
  induction cs with
  | nil =>
    intro parts cur hbound hnd hpM
    show (if cur.len ≠ 0 ∧ parts.length < M then parts ++ [cur]
      else parts).map Fstr.content = _
    rw [List.append_nil, chunks_no_delim d cur.content hnd]
    by_cases h1 : cur.len ≠ 0 ∧ parts.length < M
    · rw [if_pos h1]
      have hne : ¬ cur.content.isEmpty := by
        rw [List.isEmpty_iff]
        intro h
        exact h1.1 ((content_nil_iff cur).mp h)
      rw [List.filter_cons_of_pos (by simpa using hne), List.filter_nil]
      rw [show M - parts.length = (M - parts.length - 1) + 1 by omega,
        List.take_succ_cons, List.take_nil, List.map_append]
      rfl
    · rw [if_neg h1]
      by_cases h2 : cur.len = 0
      · have hcc : cur.content = [] := (content_nil_iff cur).mpr h2
        rw [hcc]
        rw [List.filter_cons_of_neg (by simp), List.filter_nil,
          List.take_nil, List.append_nil]
      · have hM : M ≤ parts.length := by
          by_contra hc
          exact h1 ⟨h2, by omega⟩
        rw [show M - parts.length = 0 by omega, List.take_zero,
          List.append_nil]
  | cons c cs ih =>
    intro parts cur hbound hnd hpM
    simp only [List.length_cons] at hbound
    by_cases hM : M ≤ parts.length
    · rw [splitLoop, if_pos hM]
      show (if cur.len ≠ 0 ∧ parts.length < M then parts ++ [cur]
        else parts).map Fstr.content = _
      rw [if_neg (by push_neg; intro; omega),
        show M - parts.length = 0 by omega, List.take_zero, List.append_nil]
    · push_neg at hM
      by_cases hcd : c = d
      · by_cases hcur : cur.len ≠ 0
        · rw [splitLoop, if_neg (by omega), if_pos hcd, if_pos hcur]
          have hres := ih (parts ++ [cur]) (basic_fstring.clear cur)
            (by show 0 + cs.length ≤ cur.cap; omega)
            (by rw [clear_content]; exact List.not_mem_nil d)
            (by simp only [List.length_append, List.length_cons,
              List.length_nil]; omega)
          rw [hres, clear_content, List.nil_append]
          rw [hcd, chunks_append d cur.content hnd (d :: cs),
            chunks_cons_delim d cs]
          rw [show consHead cur.content ([] :: chunks d cs) =
            (cur.content ++ []) :: chunks d cs from rfl, List.append_nil]
          have hne : ¬ cur.content.isEmpty := by
            rw [List.isEmpty_iff]
            intro h
            exact hcur ((content_nil_iff cur).mp h)
          rw [List.filter_cons_of_pos (by simpa using hne)]
          rw [show M - parts.length = (M - parts.length - 1) + 1 by omega,
            List.take_succ_cons, List.map_append,
            show M - (parts ++ [cur]).length = M - parts.length - 1 by
              simp only [List.length_append, List.length_cons,
                List.length_nil]; omega]
          rw [List.append_assoc]
          rfl
        · rw [splitLoop, if_neg (by omega), if_pos hcd, if_neg hcur]
          push_neg at hcur
          have hcc : cur.content = [] := (content_nil_iff cur).mpr hcur
          have hres := ih parts cur (by omega) hnd hpM
          rw [hres, hcc, List.nil_append, List.nil_append, hcd,
            chunks_cons_delim d cs,
            List.filter_cons_of_neg (by simp)]
      · rw [splitLoop, if_neg (by omega), if_neg hcd]
        have hlt : cur.len < cur.cap := by omega
        have hac := append_ch_spec cur c hlt
        have hres := ih parts (basic_fstring.append_ch cur c)
          (by rw [hac.2.1, hac.2.2]; omega)
          (by
            rw [hac.1]
            intro hmem
            rcases List.mem_append.mp hmem with h | h
            · exact hnd h
            · simp only [List.mem_singleton] at h
              exact hcd h.symm)
          hpM
        rw [hres, hac.1, List.append_assoc]
        rfl

end algorithms

/-- C6: split emits, in left-to-right scan order, exactly the first
MaxParts non-empty maximal delimiter-free runs of the string (empty
segments from delimiter runs or leading delimiters are dropped; the
trailing partial segment is emitted when non-empty; at most MaxParts
segments are produced, so every emitted segment is non-empty and the
count is bounded); in particular splitting a,,b on the comma yields
exactly the two segments a and b. -/
theorem split_drops_empty_segments (s : Fstr) (d M : Nat) (h : s.Wf) :
    (algorithms.split s d M).map Fstr.content =
      ((algorithms.chunks d s.content).filter (fun l => !l.isEmpty)).take M ∧
    (∀ p ∈ algorithms.split s d M, p.content ≠ []) ∧
    (algorithms.split s d M).length ≤ M ∧
    (algorithms.split (basic_fstring.ofList 30 [97, 44, 44, 98]) 44 16).map
      Fstr.content = [[97], [98]] := by
  have hclen : s.content.length = s.len := by
    simp [Fstr.content]
  have hmain : (algorithms.split s d M).map Fstr.content =
      ((algorithms.chunks d s.content).filter (fun l => !l.isEmpty)).take M := by
    unfold algorithms.split
    have hres := algorithms.splitLoop_spec d M s.content [] (Fstr.mk0 s.cap)
      (by show 0 + s.content.length ≤ s.cap; rw [hclen]; have := h.1; omega)
      (by show d ∉ ([] : List Nat); exact List.not_mem_nil d)
      (by simp)
    rw [hres]
    show [] ++ _ = _
    rw [List.nil_append]
    rfl
  refine ⟨hmain, ?_, ?_, ?_⟩
  · intro p hp
    have hmem : p.content ∈ (algorithms.split s d M).map Fstr.content :=
      List.mem_map_of_mem Fstr.content hp
    rw [hmain] at hmem
    have hmem2 := List.mem_of_mem_take hmem
    have := List.of_mem_filter hmem2
    simpa [List.isEmpty_iff] using this
  · have := congrArg List.length hmain
    simp only [List.length_map, List.length_take] at this
    omega
  · decide

/-- Witness for C6 at the specification's own concrete scenario: the
capacity-30 string a,,b split on the comma with the default maximum of
16 parts yields the two segments a and b, the empty middle segment
dropped. -/
theorem split_drops_empty_segments_witness :
    (algorithms.split (basic_fstring.ofList 30 [97, 44, 44, 98]) 44 16).map
      Fstr.content = [[97], [98]] ∧
    (algorithms.split (basic_fstring.ofList 30 [97, 44, 44, 98]) 44
      16).length ≤ 16 := by
  have h := split_drops_empty_segments (basic_fstring.ofList 30
    [97, 44, 44, 98]) 44 16 (by decide)
  exact ⟨h.2.2.2, h.2.2.1⟩

end Zuu
